import Mathlib

/-!
# Verification of the Minesweeper deduction solver (mineSweeper.py)

Shallow embedding of the solver in `src/mineSweeper.py`.

Correspondence with the source:
* A cell's state is a `Nat` exactly as in the Python `IntEnum FieldType`:
  `0`–`8` are `Numbered0`..`Numbered8`, `9` is `Mine`, `10` is `Unknown`.
* The board (`playarea`) is a column-major list of lists: `playarea[x][y]`,
  together with the global counter `mines_left : Int`.
* Python `Field` objects are hashed by identity, and there is exactly one
  object per coordinate, so a Python `set` of fields is embedded as a
  `Finset (Nat × Nat)` of coordinates.
* The external oracle (`mineField.MineField.sweep_cell`, not part of this
  repository's sources) is modelled from the spec (section 6): a query
  returns either a count `some n` (`0 ≤ n ≤ 8`) or the distinguished
  "was a mine" result, embedded as `none`.  Fallible computations return
  `Option`; a `none` result is the "hit a mine" (loss) outcome.
* Python's in-place mutation of the working region list in `split_regions`
  is embedded by threading the list through the computation and returning
  it, so that restoration claims remain observable.
-/

/-- Static data of one solve: board dimensions and the oracle (spec section 6).
`oracle x y = none` means the cell at `(x, y)` was actually a mine;
`oracle x y = some n` is the adjacent-mine count reported for a safe cell. -/
structure Config where
  width : Nat
  height : Nat
  oracle : Nat → Nat → Option Nat

/-- The mutable global state of the Python program: `playarea` (cell types)
and `mines_left`. -/
structure GState where
  playarea : List (List Nat)
  mines_left : Int
deriving DecidableEq

/-- `playarea[x][y].type`; out-of-range reads (which the Python program never
performs) default to `10` (Unknown). -/
def cellType (st : GState) (x y : Nat) : Nat :=
  (st.playarea.getD x []).getD y 10

/-- `playarea[x][y].type = t`. Out-of-range writes are no-ops. -/
def setCell (st : GState) (x y t : Nat) : GState :=
  ⟨st.playarea.set x ((st.playarea.getD x []).set y t), st.mines_left⟩

/-- The coordinate is inside the stored grid. -/
def inGrid (st : GState) (p : Nat × Nat) : Prop :=
  p.1 < st.playarea.length ∧ p.2 < (st.playarea.getD p.1 []).length

instance (st : GState) (p : Nat × Nat) : Decidable (inGrid st p) := by
  unfold inGrid; infer_instance

/-- `Region` dataclass: `mines_min`, `mines_max` and the set of fields. -/
structure Region where
  mines_min : Int
  mines_max : Int
  fields : Finset (Nat × Nat)
deriving DecidableEq

/-- `sweep_field` (lines 110–112): query the oracle and store the reported
count.  The source converts the oracle's answer unconditionally and surfaces
no loss variant of its own — when the oracle reports that the cell was a
mine, the program simply aborts (an unhandled condition); the `none` result
here is the shallow rendering of that abort propagating out of the
computation, not a variant the source constructs or inspects. -/
def sweep_field (cfg : Config) (st : GState) (x y : Nat) : Option GState :=
  match cfg.oracle x y with
  | none => none
  | some n => some (setCell st x y n)

/-- Sweep every coordinate of a list in order (the `for field in region.fields`
loop bodies of `check_region`); aborts on a loss. -/
def sweepList (cfg : Config) (st : GState) : List (Nat × Nat) → Option GState
  | [] => some st
  | p :: rest =>
    match sweep_field cfg st p.1 p.2 with
    | none => none
    | some st1 => sweepList cfg st1 rest

/-- One iteration of the marking loop of `check_region`:
`field.type = FieldType.Mine; mines_left = mines_left - 1`. -/
def markCell (st : GState) (p : Nat × Nat) : GState :=
  ⟨(setCell st p.1 p.2 9).playarea, st.mines_left - 1⟩

/-- Mark every coordinate of a list as a mine, decrementing `mines_left`
once per field. -/
def markList (st : GState) : List (Nat × Nat) → GState
  | [] => st
  | p :: rest => markList (markCell st p) rest

/-- Total order on coordinates used to enumerate a `Finset` of fields as a
list (Python iterates its hash sets in an unspecified order; every order
yields the same final state since distinct cells are updated independently). -/
def fieldLe (p q : Nat × Nat) : Prop := Nat.pair p.1 p.2 ≤ Nat.pair q.1 q.2

instance : DecidableRel fieldLe := fun p q =>
  inferInstanceAs (Decidable (Nat.pair p.1 p.2 ≤ Nat.pair q.1 q.2))

instance : IsTrans (Nat × Nat) fieldLe := ⟨fun _ _ _ h1 h2 => le_trans h1 h2⟩

instance : IsAntisymm (Nat × Nat) fieldLe :=
  ⟨fun a b h1 h2 => by
    have h := Nat.pair_eq_pair.mp (le_antisymm h1 h2)
    exact Prod.ext h.1 h.2⟩

instance : IsTotal (Nat × Nat) fieldLe := ⟨fun _ _ => le_total _ _⟩

/-- The fields of a region as a duplicate-free list (insertion sort of the
underlying multiset, which is well defined on permutation classes). -/
def fieldList (s : Finset (Nat × Nat)) : List (Nat × Nat) :=
  Quot.liftOn s.1 (fun l => l.insertionSort fieldLe)
    (fun l1 l2 h =>
      List.eq_of_perm_of_sorted
        ((l1.perm_insertionSort fieldLe).trans
          ((List.Perm.trans h (l2.perm_insertionSort fieldLe).symm)))
        (List.sorted_insertionSort fieldLe l1) (List.sorted_insertionSort fieldLe l2))

/-- `check_region` (lines 122–138): act on a region with collapsed bounds,
returning the new state and whether the playarea was modified. -/
def check_region (cfg : Config) (st : GState) (r : Region) : Option (GState × Bool) :=
  if r.fields.card = 0 ∨ r.mines_min ≠ r.mines_max then some (st, false)
  else if r.mines_min = 0 then
    match sweepList cfg st (fieldList r.fields) with
    | none => none
    | some st1 => some (st1, true)
  else if r.mines_min = (r.fields.card : Int) then
    some (markList st (fieldList r.fields), true)
  else some (st, false)

/-- The up-to-8 grid neighbours of `(x, y)` scanned by `find_adjacent_type`
(lines 116–118): the clipped 3×3 box minus the cell itself. -/
def neighborhood (cfg : Config) (x y : Nat) : Finset (Nat × Nat) :=
  (Finset.Ico (x - 1) (min (x + 2) cfg.width) ×ˢ
    Finset.Ico (y - 1) (min (y + 2) cfg.height)).filter
   (fun p => ¬(p.1 = x ∧ p.2 = y))

/-- `find_adjacent_type` (lines 114–120). -/
def find_adjacent_type (cfg : Config) (st : GState) (x y t : Nat) : Finset (Nat × Nat) :=
  (neighborhood cfg x y).filter (fun p => cellType st p.1 p.2 = t)

/-- Scan order of the board loops (`for y in range(height): for x in range(width)`). -/
def coordList (cfg : Config) : List (Nat × Nat) :=
  (List.range cfg.height).flatMap (fun y => (List.range cfg.width).map (fun x => (x, y)))

/-- The body of `find_regions` (lines 143–172), threading playarea state, the
`playarea_modified` flag and the collected region list through the scan. -/
def find_go (cfg : Config) : GState → Bool → List Region → List (Nat × Nat) →
    Option (GState × Bool × List Region)
  | st, modified, regions, [] => some (st, modified, regions)
  | st, modified, regions, (x, y) :: rest =>
    if cellType st x y = 9 ∨ cellType st x y = 10 then
      find_go cfg st modified regions rest
    else
      let num_mines : Int := (cellType st x y : Int)
      let adjacent_unknown := find_adjacent_type cfg st x y 10
      if adjacent_unknown.card = 0 then find_go cfg st modified regions rest
      else
        let adjacent_mines := (find_adjacent_type cfg st x y 9).card
        let mines_remaining : Int := num_mines - (adjacent_mines : Int)
        let region : Region := ⟨mines_remaining, mines_remaining, adjacent_unknown⟩
        if regions.any (fun other => other.fields = region.fields) then
          find_go cfg st modified regions rest
        else
          match check_region cfg st region with
          | none => none
          | some (st1, m) => find_go cfg st1 (modified || m) (regions ++ [region]) rest

/-- `find_regions` (lines 140–173). -/
def find_regions (cfg : Config) (st : GState) : Option (GState × Bool × List Region) :=
  find_go cfg st false [] (coordList cfg)

/-- `MAX_RECURSION_DEPTH` (line 67). -/
def MAX_RECURSION_DEPTH : Nat := 4

/-- The derived bounds of lines 196–205: given regions A and B, the regions
C = A∩B, D = A−B, E = B−A with the split formulas. -/
def split_pair (A B : Region) : Region × Region × Region :=
  let regionC_fields := A.fields ∩ B.fields
  let regionD_fields := A.fields \ B.fields
  let regionE_fields := B.fields \ A.fields
  let regionC_mines_max := min A.mines_max B.mines_max
  let regionC_mines_min :=
    max (A.mines_min - (regionD_fields.card : Int))
      (max (B.mines_min - (regionE_fields.card : Int)) 0)
  let regionD_mines_max := max (A.mines_max - regionC_mines_min) 0
  let regionD_mines_min := max (A.mines_min - regionC_mines_max) 0
  let regionE_mines_max := max (B.mines_max - regionC_mines_min) 0
  let regionE_mines_min := max (B.mines_min - regionC_mines_max) 0
  (⟨regionC_mines_min, regionC_mines_max, regionC_fields⟩,
   ⟨regionD_mines_min, regionD_mines_max, regionD_fields⟩,
   ⟨regionE_mines_min, regionE_mines_max, regionE_fields⟩)

/-- The ordered pair indices enumerated by the two nested `for` loops of
`split_regions` (lines 179–180): `(iA, iB)` with `iA < iB < n`, `iA` major. -/
def pair_list (n : Nat) : List (Nat × Nat) :=
  (List.range n).flatMap (fun a => (List.range' (a + 1) (n - (a + 1))).map (fun b => (a, b)))

/-- The pair loop of `split_regions` (lines 179–234).  `deep` is the recursive
call at `depth + 1`.  Mutation of the Python list (append C, overwrite A and B
with D and E, then restore and drop the appended element, lines 218–229) is
made explicit; the final region list is returned so restoration is observable. -/
def split_go (cfg : Config)
    (deep : GState → List Region → Option (GState × List Region × Bool)) :
    GState → List Region → List (Nat × Nat) → Option (GState × List Region × Bool)
  | st, regions, [] => some (st, regions, false)
  | st, regions, (iA, iB) :: rest =>
    let regionA := regions.getD iA ⟨0, 0, ∅⟩
    let regionB := regions.getD iB ⟨0, 0, ∅⟩
    let regionC_fields := regionA.fields ∩ regionB.fields
    if regionC_fields.card = 0 then
      -- No overlap, don't split
      split_go cfg deep st regions rest
    else
      let regionD_fields := regionA.fields \ regionB.fields
      let regionE_fields := regionB.fields \ regionA.fields
      if regionD_fields.card = 0 ∧ regionE_fields.card = 0 then
        -- Full overlap, don't split
        split_go cfg deep st regions rest
      else
        let regionC := (split_pair regionA regionB).1
        let regionD := (split_pair regionA regionB).2.1
        let regionE := (split_pair regionA regionB).2.2
        match check_region cfg st regionC with
        | none => none
        | some (st1, m1) =>
          match check_region cfg st1 regionD with
          | none => none
          | some (st2, m2) =>
            match check_region cfg st2 regionE with
            | none => none
            | some (st3, m3) =>
              if m1 || m2 || m3 then some (st3, regions, true)
              else
                let updated := ((regions ++ [regionC]).set iA regionD).set iB regionE
                match deep st3 updated with
                | none => none
                | some (st4, l4, m4) =>
                  let restored := ((l4.set iB regionB).set iA regionA).dropLast
                  if m4 then some (st4, restored, true)
                  else split_go cfg deep st4 restored rest

/-- `split_regions` indexed by remaining fuel `MAX_RECURSION_DEPTH - depth`:
fuel 0 is the depth guard of lines 176–177. -/
def split_fuel (cfg : Config) : Nat → GState → List Region →
    Option (GState × List Region × Bool)
  | 0, st, regions => some (st, regions, false)
  | fuel + 1, st, regions =>
    split_go cfg (split_fuel cfg fuel) st regions (pair_list regions.length)

/-- `split_regions` (lines 175–234). -/
def split_regions (cfg : Config) (st : GState) (regions : List Region) (depth : Nat) :
    Option (GState × List Region × Bool) :=
  split_fuel cfg (MAX_RECURSION_DEPTH - depth) st regions

/-- `find_remaining` (lines 236–242): all Unknown cells in scan order. -/
def find_remaining (cfg : Config) (st : GState) : List (Nat × Nat) :=
  (List.range cfg.height).flatMap (fun y =>
    (List.range cfg.width).filterMap (fun x =>
      if cellType st x y = 10 then some (x, y) else none))

/-- Result of one iteration of the main `while True` loop: either the loop
continues with a new state, or it breaks out solved. -/
inductive StepOutcome where
  | cont (st : GState)
  | solved (st : GState)
deriving DecidableEq

/-- One iteration of the main loop (lines 257–284).  The index of the random
fallback guess (`randint`, line 283) is the only nondeterminism of the
program and is passed in as `guess`.  The source loop never inspects any
reveal's outcome: a loss anywhere inside the iteration aborts the whole
program, which the shallow embedding renders as the `none` result
propagating through every `match` below — the matches are the rendering of
that abort, not checks present in the source. -/
def loop_step (cfg : Config) (st : GState) (guess : Nat) : Option StepOutcome :=
  match find_regions cfg st with
  | none => none
  | some (st1, modified, regions) =>
    if modified then some (.cont st1)
    else
      match split_regions cfg st1 regions 0 with
      | none => none
      | some (st2, _, modified2) =>
        if modified2 then some (.cont st2)
        else
          let remaining := find_remaining cfg st2
          if st2.mines_left = 0 then
            match sweepList cfg st2 remaining with
            | none => none
            | some st3 => some (.solved st3)
          else if remaining.length = 0 then some (.solved st2)
          else
            let g := remaining.getD guess (0, 0)
            match sweep_field cfg st2 g.1 g.2 with
            | none => none
            | some st3 => some (.cont st3)

/-! ## Ground-truth model (spec sections 3 and 6)

A real mine configuration is a boolean assignment on coordinates.  The
oracle of the spec reports, for a safe cell, the number of true mines among
its neighbours, and the distinguished mine result for a mine cell. -/

/-- Number of true mines of the assignment inside a field set. -/
def countMines (mines : Nat × Nat → Bool) (s : Finset (Nat × Nat)) : Nat :=
  (s.filter (fun p => mines p = true)).card

/-- True number of mines adjacent to `(x, y)`. -/
def adjMines (cfg : Config) (mines : Nat × Nat → Bool) (x y : Nat) : Nat :=
  countMines mines (neighborhood cfg x y)

/-- Modelled from the spec: the oracle contract of section 6 (the `mineField`
module is not part of this repository's sources).  On every board cell the
oracle reports the mine itself or the true adjacent count. -/
def oracleMatches (cfg : Config) (mines : Nat × Nat → Bool) : Prop :=
  ∀ x, x < cfg.width → ∀ y, y < cfg.height →
    cfg.oracle x y = if mines (x, y) = true then none
                     else some (adjMines cfg mines x y)

/-- The playarea agrees with the real mine configuration: the grid has the
declared shape, every stored cell type is a legal `FieldType` value, revealed
counts are the true adjacent counts of non-mine cells, and marked cells are
true mines. -/
def consistent (cfg : Config) (mines : Nat × Nat → Bool) (st : GState) : Prop :=
  st.playarea.length = cfg.width ∧
  (∀ col ∈ st.playarea, col.length = cfg.height) ∧
  ∀ x, x < cfg.width → ∀ y, y < cfg.height →
    cellType st x y ≤ 10 ∧
    (cellType st x y ≤ 8 →
      mines (x, y) = false ∧ cellType st x y = adjMines cfg mines x y) ∧
    (cellType st x y = 9 → mines (x, y) = true)

instance (cfg : Config) (mines : Nat × Nat → Bool) (st : GState) :
    Decidable (consistent cfg mines st) := by
  unfold consistent; infer_instance

instance (cfg : Config) (mines : Nat × Nat → Bool) :
    Decidable (oracleMatches cfg mines) := by
  unfold oracleMatches; infer_instance

/-! ## Basic lemmas: grid reads and writes -/

theorem getD_set_eq {α : Type _} (l : List α) (n : Nat) (a d : α) :
    (l.set n a).getD n d = if n < l.length then a else d := by
  rw [List.getD_eq_getElem?_getD, List.getElem?_set, if_pos rfl]
  split_ifs <;> rfl

theorem getD_set_ne {α : Type _} (l : List α) {m n : Nat} (h : m ≠ n) (a d : α) :
    (l.set m a).getD n d = l.getD n d := by
  rw [List.getD_eq_getElem?_getD, List.getElem?_set_ne h, ← List.getD_eq_getElem?_getD]

theorem set_getD_self {α : Type _} (l : List α) (n : Nat) (d : α) (h : n < l.length) :
    l.set n (l.getD n d) = l := by
  apply List.ext_getElem?
  intro m
  rw [List.getElem?_set]
  split_ifs with h1
  · subst h1
    rw [List.getD_eq_getElem?_getD, List.getElem?_eq_getElem h]
    rfl
  · rfl

theorem cellType_setCell_self (st : GState) {x y : Nat} (t : Nat) (h : inGrid st (x, y)) :
    cellType (setCell st x y t) x y = t := by
  obtain ⟨hx, hy⟩ := h
  simp only [cellType, setCell]
  rw [getD_set_eq, if_pos hx, getD_set_eq, if_pos ?_]
  exact hy

theorem cellType_setCell_other (st : GState) {x y x2 y2 : Nat} (t : Nat)
    (h : ¬(x2 = x ∧ y2 = y)) : cellType (setCell st x y t) x2 y2 = cellType st x2 y2 := by
  simp only [cellType, setCell]
  by_cases hx : x = x2
  · subst hx
    have hy : y ≠ y2 := fun hy => h ⟨rfl, hy.symm⟩
    rw [getD_set_eq]
    split_ifs with hlt
    · rw [getD_set_ne _ hy]
    · rw [List.getD_eq_default _ _ (le_of_not_lt hlt)]
  · rw [getD_set_ne _ hx]

theorem playarea_length_setCell (st : GState) (x y t : Nat) :
    (setCell st x y t).playarea.length = st.playarea.length :=
  List.length_set ..

theorem colLen_setCell (st : GState) (x y t q : Nat) :
    ((setCell st x y t).playarea.getD q []).length = (st.playarea.getD q []).length := by
  simp only [setCell]
  by_cases hq : x = q
  · subst hq
    rw [getD_set_eq]
    split_ifs with h
    · rw [List.length_set]
    · rw [List.getD_eq_default _ _ (le_of_not_lt h)]
  · rw [getD_set_ne _ hq]

theorem inGrid_setCell (st : GState) (x y t : Nat) (p : Nat × Nat) :
    inGrid (setCell st x y t) p ↔ inGrid st p := by
  unfold inGrid
  rw [playarea_length_setCell, colLen_setCell]

/-! ## Lemmas about the reveal and mark loops of `check_region` -/

theorem fieldList_mem {s : Finset (Nat × Nat)} {p : Nat × Nat} :
    p ∈ fieldList s ↔ p ∈ s := by
  rw [Finset.mem_def]
  unfold fieldList
  generalize s.1 = m
  induction m using Quotient.inductionOn with
  | h l =>
    show p ∈ l.insertionSort fieldLe ↔ p ∈ (l : Multiset (Nat × Nat))
    rw [Multiset.mem_coe]
    exact (l.perm_insertionSort fieldLe).mem_iff

theorem fieldList_length (s : Finset (Nat × Nat)) : (fieldList s).length = s.card := by
  rw [Finset.card_def]
  unfold fieldList
  generalize s.1 = m
  induction m using Quotient.inductionOn with
  | h l =>
    show (l.insertionSort fieldLe).length = Multiset.card (l : Multiset (Nat × Nat))
    rw [Multiset.coe_card]
    exact (l.perm_insertionSort fieldLe).length_eq

/-- Sweeping a list of safe cells succeeds, leaves `mines_left` and the grid
shape alone, rewrites exactly the swept cells to their oracle counts and
nothing else. -/
theorem sweepList_spec (cfg : Config) (l : List (Nat × Nat)) :
    ∀ st : GState, (∀ p ∈ l, ∃ n, cfg.oracle p.1 p.2 = some n) →
      ∃ st2, sweepList cfg st l = some st2 ∧
        st2.mines_left = st.mines_left ∧
        st2.playarea.length = st.playarea.length ∧
        (∀ q, ((st2.playarea.getD q []).length = (st.playarea.getD q []).length)) ∧
        (∀ p, p ∉ l → cellType st2 p.1 p.2 = cellType st p.1 p.2) ∧
        (∀ p ∈ l, inGrid st p → ∃ n, cfg.oracle p.1 p.2 = some n ∧
          cellType st2 p.1 p.2 = n) := by
  induction l with
  | nil =>
    intro st _
    exact ⟨st, rfl, rfl, rfl, fun _ => rfl, fun _ _ => rfl,
      fun p hp => absurd hp (List.not_mem_nil p)⟩
  | cons p rest ih =>
    intro st h
    obtain ⟨n, hn⟩ := h p (List.mem_cons_self p rest)
    have hstep : sweepList cfg st (p :: rest) = sweepList cfg (setCell st p.1 p.2 n) rest := by
      simp [sweepList, sweep_field, hn]
    obtain ⟨st2, hrun, hml, hlen, hcol, hout, hin⟩ :=
      ih (setCell st p.1 p.2 n) (fun q hq => h q (List.mem_cons_of_mem _ hq))
    refine ⟨st2, hstep ▸ hrun, ?_, ?_, ?_, ?_, ?_⟩
    · rw [hml]; rfl
    · rw [hlen, playarea_length_setCell]
    · intro q; rw [hcol, colLen_setCell]
    · intro q hq
      have hq1 : q ∉ rest := fun hh => hq (List.mem_cons_of_mem _ hh)
      have hq2 : q ≠ p := fun hh => hq (hh ▸ List.mem_cons_self p rest)
      rw [hout q hq1]
      exact cellType_setCell_other st n
        (fun hh => hq2 (Prod.ext hh.1 hh.2))
    · intro q hq hgrid
      rcases List.mem_cons.mp hq with rfl | hq2
      · by_cases hqr : q ∈ rest
        · obtain ⟨m, hm, hcell⟩ := hin q hqr ((inGrid_setCell ..).mpr hgrid)
          rw [hm] at hn
          exact ⟨m, hm, hcell⟩
        · refine ⟨n, hn, ?_⟩
          rw [hout q hqr]
          exact cellType_setCell_self st n hgrid
      · exact hin q hq2 ((inGrid_setCell ..).mpr hgrid)

theorem cellType_markCell (st : GState) (p : Nat × Nat) (x y : Nat) :
    cellType (markCell st p) x y = cellType (setCell st p.1 p.2 9) x y := rfl

/-- Marking a list of cells stamps type 9 on each, decrements `mines_left`
once per list element, and touches nothing else. -/
theorem markList_spec (l : List (Nat × Nat)) :
    ∀ st : GState,
      (markList st l).mines_left = st.mines_left - l.length ∧
      (markList st l).playarea.length = st.playarea.length ∧
      (∀ q, (((markList st l).playarea.getD q []).length = (st.playarea.getD q []).length)) ∧
      (∀ p, p ∉ l → cellType (markList st l) p.1 p.2 = cellType st p.1 p.2) ∧
      (∀ p ∈ l, inGrid st p → cellType (markList st l) p.1 p.2 = 9) := by
  induction l with
  | nil =>
    intro st
    refine ⟨by simp [markList], rfl, fun _ => rfl, fun _ _ => rfl,
      fun p hp => absurd hp (List.not_mem_nil p)⟩
  | cons p rest ih =>
    intro st
    obtain ⟨hml, hlen, hcol, hout, hin⟩ := ih (markCell st p)
    have hmlen : (markCell st p).playarea.length = st.playarea.length :=
      playarea_length_setCell ..
    have hmcol : ∀ q, (((markCell st p).playarea.getD q []).length
        = (st.playarea.getD q []).length) := fun q => colLen_setCell st p.1 p.2 9 q
    refine ⟨?_, ?_, ?_, ?_, ?_⟩
    · show (markList (markCell st p) rest).mines_left = _
      rw [hml]
      show st.mines_left - 1 - (rest.length : Int) = _
      push_cast [List.length_cons]
      ring
    · show (markList (markCell st p) rest).playarea.length = _
      rw [hlen, hmlen]
    · intro q
      show ((markList (markCell st p) rest).playarea.getD q []).length = _
      rw [hcol, hmcol]
    · intro q hq
      have hq1 : q ∉ rest := fun hh => hq (List.mem_cons_of_mem _ hh)
      have hq2 : q ≠ p := fun hh => hq (hh ▸ List.mem_cons_self p rest)
      show cellType (markList (markCell st p) rest) q.1 q.2 = _
      rw [hout q hq1, cellType_markCell]
      exact cellType_setCell_other st 9 (fun hh => hq2 (Prod.ext hh.1 hh.2))
    · intro q hq hgrid
      rcases List.mem_cons.mp hq with rfl | hq2
      · by_cases hqr : q ∈ rest
        · refine hin q hqr ?_
          show inGrid (markCell st q) q
          unfold inGrid
          rw [hmlen, hmcol]
          exact hgrid
        · show cellType (markList (markCell st q) rest) q.1 q.2 = 9
          rw [hout q hqr, cellType_markCell]
          exact cellType_setCell_self st 9 hgrid
      · refine hin q hq2 ?_
        show inGrid (markCell st p) q
        unfold inGrid
        rw [hmlen, hmcol]
        exact hgrid

/-! ## Lemmas about `check_region` -/

/-- A `check_region` call that reports no mutation really did nothing. -/
theorem check_region_false_frame {cfg : Config} {st : GState} {r : Region} {st1 : GState}
    (h : check_region cfg st r = some (st1, false)) : st1 = st := by
  unfold check_region at h
  split_ifs at h with h1 h2 h3
  · simp at h; exact h.symm
  · rcases hsw : sweepList cfg st (fieldList r.fields) with _ | st2 <;>
      rw [hsw] at h <;> simp at h
  · simp at h
  · simp at h; exact h.symm

/-- If the oracle never reports a mine, sweeping never produces the loss
outcome. -/
theorem sweepList_total (cfg : Config) (horr : ∀ x y, cfg.oracle x y ≠ none) :
    ∀ (l : List (Nat × Nat)) (st : GState), sweepList cfg st l ≠ none := by
  intro l
  induction l with
  | nil => intro st h; exact Option.noConfusion h
  | cons p rest ih =>
    intro st h
    rcases ho : cfg.oracle p.1 p.2 with _ | n
    · exact horr _ _ ho
    · rw [show sweepList cfg st (p :: rest) = sweepList cfg (setCell st p.1 p.2 n) rest from
        by simp [sweepList, sweep_field, ho]] at h
      exact ih _ h

/-- If the oracle never reports a mine, `check_region` never produces the
loss outcome. -/
theorem check_region_total (cfg : Config) (horr : ∀ x y, cfg.oracle x y ≠ none) :
    ∀ (st : GState) (r : Region), check_region cfg st r ≠ none := by
  intro st r h
  unfold check_region at h
  split_ifs at h with h1 h2
  rcases hsw : sweepList cfg st (fieldList r.fields) with _ | st2
  · exact sweepList_total cfg horr _ _ hsw
  · rw [hsw] at h; simp at h

/-! ## Lemmas about `split_regions` -/

theorem pair_list_bounds {n : Nat} {p : Nat × Nat} (hp : p ∈ pair_list n) :
    p.1 < p.2 ∧ p.2 < n := by
  unfold pair_list at hp
  simp only [List.mem_flatMap, List.mem_map, List.mem_range] at hp
  obtain ⟨a, ha, b, hb, rfl⟩ := hp
  rw [List.mem_range'] at hb
  obtain ⟨i, hi, rfl⟩ := hb
  constructor <;> simp <;> omega

/-- Lines 227–229: writing the two saved regions back and dropping the
appended intersection restores the list exactly. -/
theorem restore_eq (regions : List Region) (c d e : Region) {iA iB : Nat}
    (hAB : iA < iB) (hB : iB < regions.length) :
    (((((regions ++ [c]).set iA d).set iB e).set iB (regions.getD iB ⟨0, 0, ∅⟩)).set iA
        (regions.getD iA ⟨0, 0, ∅⟩)).dropLast = regions := by
  have hA : iA < regions.length := lt_trans hAB hB
  have hne : iA ≠ iB := Nat.ne_of_lt hAB
  rw [List.set_set, List.set_comm _ _ _ hne, List.set_set]
  rw [List.set_append, if_pos (by simpa using hB)]
  rw [List.set_append, if_pos (by simp [hA])]
  rw [List.dropLast_concat]
  rw [show regions.getD iA ⟨0, 0, ∅⟩
      = (regions.set iB (regions.getD iB ⟨0, 0, ∅⟩)).getD iA ⟨0, 0, ∅⟩ from
    (getD_set_ne _ hne.symm _ _).symm]
  rw [set_getD_self _ iA _ (by rw [List.length_set]; exact hA)]
  rw [set_getD_self _ iB _ hB]

/-- The pair loop returns the region list it was handed, provided the deeper
call does so as well. -/
theorem split_go_list (cfg : Config)
    (deep : GState → List Region → Option (GState × List Region × Bool))
    (hdeep : ∀ st rs out, deep st rs = some out → out.2.1 = rs) :
    ∀ (pairs : List (Nat × Nat)) (st : GState) (regions : List Region),
      (∀ p ∈ pairs, p.1 < p.2 ∧ p.2 < regions.length) →
      ∀ out, split_go cfg deep st regions pairs = some out → out.2.1 = regions := by
  intro pairs
  induction pairs with
  | nil =>
    intro st regions _ out h
    simp only [split_go] at h
    injection h with h2
    rw [← h2]
  | cons pr rest ih =>
    intro st regions hb out h
    obtain ⟨iA, iB⟩ := pr
    obtain ⟨hab, hblen⟩ := hb (iA, iB) (List.mem_cons_self ..)
    have hbrest : ∀ p ∈ rest, p.1 < p.2 ∧ p.2 < regions.length :=
      fun p hp => hb p (List.mem_cons_of_mem _ hp)
    simp only [split_go] at h
    split at h
    · exact ih st regions hbrest out h
    · split at h
      · exact ih st regions hbrest out h
      · split at h
        · exact Option.noConfusion h
        · rename_i st1 m1 heq1
          split at h
          · exact Option.noConfusion h
          · rename_i st2 m2 heq2
            split at h
            · exact Option.noConfusion h
            · rename_i st3 m3 heq3
              split at h
              · injection h with h2
                rw [← h2]
              · split at h
                · exact Option.noConfusion h
                · rename_i st4 l4 m4 heq4
                  have hl4 := hdeep _ _ _ heq4
                  simp only at hl4
                  rw [hl4, restore_eq regions _ _ _ hab hblen] at h
                  split at h
                  · injection h with h2
                    rw [← h2]
                  · exact ih st4 regions hbrest out h

/-- The pair loop leaves the board alone whenever it reports no mutation,
provided the deeper call does so as well. -/
theorem split_go_frame (cfg : Config)
    (deep : GState → List Region → Option (GState × List Region × Bool))
    (hdeepL : ∀ st rs out, deep st rs = some out → out.2.1 = rs)
    (hdeepF : ∀ st rs out, deep st rs = some out → out.2.2 = false → out.1 = st) :
    ∀ (pairs : List (Nat × Nat)) (st : GState) (regions : List Region),
      (∀ p ∈ pairs, p.1 < p.2 ∧ p.2 < regions.length) →
      ∀ out, split_go cfg deep st regions pairs = some out → out.2.2 = false →
        out.1 = st := by
  intro pairs
  induction pairs with
  | nil =>
    intro st regions _ out h hflag
    simp only [split_go] at h
    injection h with h2
    rw [← h2]
  | cons pr rest ih =>
    intro st regions hb out h hflag
    obtain ⟨iA, iB⟩ := pr
    obtain ⟨hab, hblen⟩ := hb (iA, iB) (List.mem_cons_self ..)
    have hbrest : ∀ p ∈ rest, p.1 < p.2 ∧ p.2 < regions.length :=
      fun p hp => hb p (List.mem_cons_of_mem _ hp)
    simp only [split_go] at h
    split at h
    · exact ih st regions hbrest out h hflag
    · split at h
      · exact ih st regions hbrest out h hflag
      · split at h
        · exact Option.noConfusion h
        · rename_i st1 m1 heq1
          split at h
          · exact Option.noConfusion h
          · rename_i st2 m2 heq2
            split at h
            · exact Option.noConfusion h
            · rename_i st3 m3 heq3
              split at h
              · rename_i hm
                injection h with h2
                rw [← h2] at hflag
                exact absurd hflag (by simp)
              · rename_i hm
                have hm123 : m1 = false ∧ m2 = false ∧ m3 = false := by
                  simp only [Bool.or_eq_true, not_or, Bool.not_eq_true] at hm
                  exact ⟨hm.1.1, hm.1.2, hm.2⟩
                have hst1 : st1 = st := check_region_false_frame (hm123.1 ▸ heq1)
                have hst2 : st2 = st1 := check_region_false_frame (hm123.2.1 ▸ heq2)
                have hst3 : st3 = st2 := check_region_false_frame (hm123.2.2 ▸ heq3)
                split at h
                · exact Option.noConfusion h
                · rename_i st4 l4 m4 heq4
                  have hl4 := hdeepL _ _ _ heq4
                  simp only at hl4
                  rw [hl4, restore_eq regions _ _ _ hab hblen] at h
                  split at h
                  · rename_i hm4
                    injection h with h2
                    rw [← h2] at hflag
                    exact absurd hflag (by simp)
                  · rename_i hm4
                    have hst4 : st4 = st3 :=
                      hdeepF _ _ _ heq4 (by simpa using hm4)
                    have := ih st4 regions hbrest out h hflag
                    rw [this, hst4, hst3, hst2, hst1]

/-- If the oracle never reports a mine and the deeper call never produces
the loss outcome, the pair loop never produces the loss outcome. -/
theorem split_go_total (cfg : Config)
    (deep : GState → List Region → Option (GState × List Region × Bool))
    (horr : ∀ x y, cfg.oracle x y ≠ none)
    (hdeepT : ∀ st rs, deep st rs ≠ none) :
    ∀ (pairs : List (Nat × Nat)) (st : GState) (regions : List Region),
      split_go cfg deep st regions pairs ≠ none := by
  intro pairs
  induction pairs with
  | nil =>
    intro st regions h
    simp only [split_go] at h
    exact Option.noConfusion h
  | cons pr rest ih =>
    intro st regions h
    obtain ⟨iA, iB⟩ := pr
    simp only [split_go] at h
    split at h
    · exact ih st regions h
    · split at h
      · exact ih st regions h
      · split at h
        · rename_i heq1
          exact check_region_total cfg horr _ _ heq1
        · rename_i st1 m1 heq1
          split at h
          · rename_i heq2
            exact check_region_total cfg horr _ _ heq2
          · rename_i st2 m2 heq2
            split at h
            · rename_i heq3
              exact check_region_total cfg horr _ _ heq3
            · rename_i st3 m3 heq3
              split at h
              · exact Option.noConfusion h
              · split at h
                · rename_i heq4
                  exact hdeepT _ _ heq4
                · rename_i st4 l4 m4 heq4
                  split at h
                  · exact Option.noConfusion h
                  · exact ih st4 _ h

/-- `split_fuel` always returns the region list it was handed. -/
theorem split_fuel_list (cfg : Config) :
    ∀ (fuel : Nat) (st : GState) (regions : List Region) out,
      split_fuel cfg fuel st regions = some out → out.2.1 = regions := by
  intro fuel
  induction fuel with
  | zero =>
    intro st regions out h
    simp only [split_fuel] at h
    injection h with h2
    rw [← h2]
  | succ f ih =>
    intro st regions out h
    simp only [split_fuel] at h
    exact split_go_list cfg _ (fun st2 rs o hh => ih st2 rs o hh) _ st regions
      (fun p hp => pair_list_bounds hp) out h

/-- `split_fuel` leaves the board alone whenever it reports no mutation. -/
theorem split_fuel_frame (cfg : Config) :
    ∀ (fuel : Nat) (st : GState) (regions : List Region) out,
      split_fuel cfg fuel st regions = some out → out.2.2 = false → out.1 = st := by
  intro fuel
  induction fuel with
  | zero =>
    intro st regions out h hflag
    simp only [split_fuel] at h
    injection h with h2
    rw [← h2]
  | succ f ih =>
    intro st regions out h hflag
    simp only [split_fuel] at h
    exact split_go_frame cfg _ (fun st2 rs o hh => split_fuel_list cfg f st2 rs o hh)
      (fun st2 rs o hh hf => ih st2 rs o hh hf) _ st regions
      (fun p hp => pair_list_bounds hp) out h hflag

/-- If the oracle never reports a mine, `split_fuel` never produces the loss
outcome. -/
theorem split_fuel_total (cfg : Config) (horr : ∀ x y, cfg.oracle x y ≠ none) :
    ∀ (fuel : Nat) (st : GState) (regions : List Region),
      split_fuel cfg fuel st regions ≠ none := by
  intro fuel
  induction fuel with
  | zero =>
    intro st regions h
    simp only [split_fuel] at h
    exact Option.noConfusion h
  | succ f ih =>
    intro st regions h
    simp only [split_fuel] at h
    exact split_go_total cfg _ horr (fun st2 rs => ih st2 rs) _ st regions h

/-! ## Claim C6: depth bound -/

/-- Claim C6: `split_regions` never recurses past the configured maximum
depth (default 4); called with `depth` at or beyond the bound it returns
"no mutation" unconditionally — the state and the region list are returned
untouched and no pair is examined. -/
theorem claim6_depth_bound (cfg : Config) (st : GState) (regions : List Region)
    (depth : Nat) (h : MAX_RECURSION_DEPTH ≤ depth) :
    split_regions cfg st regions depth = some (st, regions, false) := by
  unfold split_regions
  rw [Nat.sub_eq_zero_of_le h]
  rfl

/-- Witness for C6 at a concrete call with `depth = 4`. -/
theorem claim6_depth_bound_witness :
    split_regions ⟨1, 1, fun _ _ => some 0⟩ ⟨[[10]], 1⟩ [⟨1, 1, {(0, 0)}⟩] 4
      = some (⟨[[10]], 1⟩, [⟨1, 1, {(0, 0)}⟩], false) :=
  claim6_depth_bound _ _ _ _ (by decide)

/-! ## Claim C7: restoration of the working region list -/

/-- Claim C7: after any `split_regions` call returns (without a loss), the
working region list it hands back is identical — same elements at the same
indices, same length — to the list it was given: every pair's append of C
and replacement of A and B by D and E has been undone. -/
theorem claim7_restoration (cfg : Config) (st : GState) (regions : List Region)
    (depth : Nat) (out : GState × List Region × Bool)
    (h : split_regions cfg st regions depth = some out) : out.2.1 = regions := by
  unfold split_regions at h
  exact split_fuel_list cfg _ st regions out h

/-- Witness for C7: a depth-0 call that really splits a pair (two overlapping
uncertain regions on a 3×1 board, with a full recursive exploration) and
returns the region list unchanged. -/
theorem claim7_restoration_witness :
    ∃ out, split_regions ⟨3, 1, fun _ _ => some 1⟩ ⟨[[10], [10], [10]], 1⟩
        [⟨1, 1, {(0, 0), (1, 0)}⟩, ⟨1, 1, {(1, 0), (2, 0)}⟩] 0 = some out ∧
      out.2.1 = [⟨1, 1, {(0, 0), (1, 0)}⟩, ⟨1, 1, {(1, 0), (2, 0)}⟩] := by
  have h : split_regions ⟨3, 1, fun _ _ => some 1⟩ ⟨[[10], [10], [10]], 1⟩
      [⟨1, 1, {(0, 0), (1, 0)}⟩, ⟨1, 1, {(1, 0), (2, 0)}⟩] 0
      = some (⟨[[10], [10], [10]], 1⟩,
        [⟨1, 1, {(0, 0), (1, 0)}⟩, ⟨1, 1, {(1, 0), (2, 0)}⟩], false) := by decide
  exact ⟨_, h, claim7_restoration _ _ _ _ _ h⟩

/-! ## Claim C10: a `False` return of `split_regions` means an untouched board -/

/-- Claim C10 (implicit): whenever `split_regions` returns with the
"no mutation" flag `false`, the board state — the type of every cell of
`playarea` and the value of `mines_left` — is exactly as it was when the
call was made; only a `true` return can coincide with a change. -/
theorem claim10_split_no_mutation_frame (cfg : Config) (st : GState)
    (regions : List Region) (depth : Nat) (out : GState × List Region × Bool)
    (h : split_regions cfg st regions depth = some out) (hflag : out.2.2 = false) :
    out.1 = st := by
  unfold split_regions at h
  exact split_fuel_frame cfg _ st regions out h hflag

/-- Witness for C10: a depth-0 call that splits a pair, recurses, reports no
mutation and hands the board back untouched. -/
theorem claim10_split_no_mutation_frame_witness :
    ∃ out, split_regions ⟨2, 2, fun _ _ => some 1⟩ ⟨[[10, 10], [10, 10]], 2⟩
        [⟨1, 1, {(0, 0), (0, 1)}⟩, ⟨1, 1, {(0, 1), (1, 1)}⟩] 0 = some out ∧
      out.2.2 = false ∧ out.1 = ⟨[[10, 10], [10, 10]], 2⟩ := by
  have h : split_regions ⟨2, 2, fun _ _ => some 1⟩ ⟨[[10, 10], [10, 10]], 2⟩
      [⟨1, 1, {(0, 0), (0, 1)}⟩, ⟨1, 1, {(0, 1), (1, 1)}⟩] 0
      = some (⟨[[10, 10], [10, 10]], 2⟩,
        [⟨1, 1, {(0, 0), (0, 1)}⟩, ⟨1, 1, {(0, 1), (1, 1)}⟩], false) := by decide
  exact ⟨_, h, rfl, claim10_split_no_mutation_frame _ _ _ _ _ h rfl⟩

/-! ## Claim C2: soundness of the derived split bounds -/

/-- Counting true mines splits over intersection and difference. -/
theorem countMines_split (mines : Nat × Nat → Bool) (s t : Finset (Nat × Nat)) :
    countMines mines s = countMines mines (s ∩ t) + countMines mines (s \ t) := by
  unfold countMines
  conv_lhs => rw [← Finset.sdiff_union_inter s t]
  rw [Finset.filter_union,
    Finset.card_union_of_disjoint
      (Finset.disjoint_filter_filter (Finset.disjoint_sdiff_inter s t))]
  rw [Nat.add_comm]

/-- Core soundness of the formulas of lines 196–201: any mine assignment
whose counts respect A's and B's bounds also respects the derived bounds of
C, D and E. -/
theorem split_pair_sound (A B : Region) (mines : Nat × Nat → Bool)
    (hA1 : A.mines_min ≤ (countMines mines A.fields : Int))
    (hA2 : (countMines mines A.fields : Int) ≤ A.mines_max)
    (hB1 : B.mines_min ≤ (countMines mines B.fields : Int))
    (hB2 : (countMines mines B.fields : Int) ≤ B.mines_max) :
    ((split_pair A B).1.mines_min ≤ (countMines mines (split_pair A B).1.fields : Int) ∧
      (countMines mines (split_pair A B).1.fields : Int) ≤ (split_pair A B).1.mines_max) ∧
    ((split_pair A B).2.1.mines_min ≤ (countMines mines (split_pair A B).2.1.fields : Int) ∧
      (countMines mines (split_pair A B).2.1.fields : Int) ≤ (split_pair A B).2.1.mines_max) ∧
    ((split_pair A B).2.2.mines_min ≤ (countMines mines (split_pair A B).2.2.fields : Int) ∧
      (countMines mines (split_pair A B).2.2.fields : Int) ≤ (split_pair A B).2.2.mines_max) := by
  have hA := countMines_split mines A.fields B.fields
  have hB := countMines_split mines B.fields A.fields
  rw [Finset.inter_comm B.fields A.fields] at hB
  have hDle : countMines mines (A.fields \ B.fields) ≤ (A.fields \ B.fields).card :=
    Finset.card_filter_le _ _
  have hEle : countMines mines (B.fields \ A.fields) ≤ (B.fields \ A.fields).card :=
    Finset.card_filter_le _ _
  simp only [split_pair]
  omega

/-- Claim C2: split soundness — for regions A and B whose constraints are
jointly consistent with a real mine configuration (here: an arbitrary
assignment `mines` satisfying both A's and B's bounds), the true number of
mines inside each of the derived regions C = A∩B, D = A−B, E = B−A lies
within the `[mines_min, mines_max]` bounds computed by `split_regions`. -/
theorem claim2_split_soundness (A B : Region) (mines : Nat × Nat → Bool)
    (hA1 : A.mines_min ≤ (countMines mines A.fields : Int))
    (hA2 : (countMines mines A.fields : Int) ≤ A.mines_max)
    (hB1 : B.mines_min ≤ (countMines mines B.fields : Int))
    (hB2 : (countMines mines B.fields : Int) ≤ B.mines_max) :
    ((split_pair A B).1.mines_min ≤ (countMines mines (split_pair A B).1.fields : Int) ∧
      (countMines mines (split_pair A B).1.fields : Int) ≤ (split_pair A B).1.mines_max) ∧
    ((split_pair A B).2.1.mines_min ≤ (countMines mines (split_pair A B).2.1.fields : Int) ∧
      (countMines mines (split_pair A B).2.1.fields : Int) ≤ (split_pair A B).2.1.mines_max) ∧
    ((split_pair A B).2.2.mines_min ≤ (countMines mines (split_pair A B).2.2.fields : Int) ∧
      (countMines mines (split_pair A B).2.2.fields : Int) ≤ (split_pair A B).2.2.mines_max) :=
  split_pair_sound A B mines hA1 hA2 hB1 hB2

/-- Witness for C2: the worked pair of the source comment's second example —
two overlapping certain regions of one mine each, with the real mine in the
shared cell. -/
theorem claim2_split_soundness_witness :
    (((1 : Int) ≤ (countMines (fun p => decide (p = (1, 0))) {(0, 0), (1, 0)} : Int)) ∧
      ((countMines (fun p => decide (p = (1, 0))) {(0, 0), (1, 0)} : Int) ≤ 1)) ∧
    (((split_pair ⟨1, 1, {(0, 0), (1, 0)}⟩ ⟨1, 1, {(1, 0), (2, 0)}⟩).1.mines_min ≤
        (countMines (fun p => decide (p = (1, 0)))
          (split_pair ⟨1, 1, {(0, 0), (1, 0)}⟩ ⟨1, 1, {(1, 0), (2, 0)}⟩).1.fields : Int)) ∧
      ((countMines (fun p => decide (p = (1, 0)))
          (split_pair ⟨1, 1, {(0, 0), (1, 0)}⟩ ⟨1, 1, {(1, 0), (2, 0)}⟩).1.fields : Int) ≤
        (split_pair ⟨1, 1, {(0, 0), (1, 0)}⟩ ⟨1, 1, {(1, 0), (2, 0)}⟩).1.mines_max)) := by
  refine ⟨by decide, ?_⟩
  exact (claim2_split_soundness ⟨1, 1, {(0, 0), (1, 0)}⟩ ⟨1, 1, {(1, 0), (2, 0)}⟩
    (fun p => decide (p = (1, 0))) (by decide) (by decide) (by decide) (by decide)).1

/-! ## Claim C5: precision of the Deduction Applier -/

/-- Claim C5: `check_region` reveals or marks cells only when the region's
bounds are collapsed (`mines_min = mines_max`) with the collapsed value
exactly `0` or exactly `|fields|` (first conjunct: a mutation report implies
the bounds were in one of those two shapes, and third conjunct: even a loss
can only arise in the collapsed-to-0 reveal branch); for an empty field set,
non-collapsed bounds, or a collapsed value that is neither `0` nor
`|fields|`, it performs no mutation and reports `false` with the state
untouched (second conjunct). -/
theorem claim5_applier_precision (cfg : Config) :
    (∀ (st : GState) (r : Region) (st1 : GState),
      check_region cfg st r = some (st1, true) →
        r.fields.card ≠ 0 ∧ r.mines_min = r.mines_max ∧
        (r.mines_min = 0 ∨ r.mines_min = (r.fields.card : Int))) ∧
    (∀ (st : GState) (r : Region),
      (r.fields.card = 0 ∨ r.mines_min ≠ r.mines_max ∨
        (r.mines_min ≠ 0 ∧ r.mines_min ≠ (r.fields.card : Int))) →
      check_region cfg st r = some (st, false)) ∧
    (∀ (st : GState) (r : Region),
      check_region cfg st r = none →
        r.fields.card ≠ 0 ∧ r.mines_min = 0 ∧ r.mines_max = 0) := by
  refine ⟨?_, ?_, ?_⟩
  · intro st r st1 h
    unfold check_region at h
    split_ifs at h with h1 h2 h3
    · simp at h
    · push_neg at h1
      exact ⟨h1.1, h1.2, Or.inl h2⟩
    · push_neg at h1
      exact ⟨h1.1, h1.2, Or.inr h3⟩
    · simp at h
  · intro st r hyp
    unfold check_region
    split_ifs with h1 h2 h3
    · rfl
    · push_neg at h1
      rcases hyp with hc | hm | hv
      · exact absurd hc h1.1
      · exact absurd h1.2 hm
      · exact absurd h2 hv.1
    · push_neg at h1
      rcases hyp with hc | hm | hv
      · exact absurd hc h1.1
      · exact absurd h1.2 hm
      · exact absurd h3 hv.2
    · rfl
  · intro st r h
    unfold check_region at h
    split_ifs at h with h1 h2
    push_neg at h1
    exact ⟨h1.1, h2, h2 ▸ h1.2.symm⟩

/-- Witness for C5: a collapsed region with value strictly between 0 and
`|fields|` produces no mutation and leaves the state untouched. -/
theorem claim5_applier_precision_witness :
    check_region ⟨2, 1, fun _ _ => some 0⟩ ⟨[[10], [10]], 3⟩ ⟨1, 1, {(0, 0), (1, 0)}⟩
      = some (⟨[[10], [10]], 3⟩, false) :=
  (claim5_applier_precision ⟨2, 1, fun _ _ => some 0⟩).2.1 ⟨[[10], [10]], 3⟩
    ⟨1, 1, {(0, 0), (1, 0)}⟩ (by decide)

/-! ## Claim C8: effects of the two collapsed shapes -/

/-- Claim C8: on a region with `mines_min = mines_max = 0` over non-empty
fields (all safe per the oracle), `check_region` reveals every field with its
oracle count and leaves `mines_left` unchanged; on a region with
`mines_min = mines_max = |fields|`, it marks every field with type 9 (Mine)
and decrements `mines_left` by exactly `|fields|`. -/
theorem claim8_collapsed_effects (cfg : Config) (st : GState) (r : Region) :
    (r.mines_min = 0 → r.mines_max = 0 → r.fields ≠ ∅ →
      (∀ p ∈ r.fields, ∃ n, cfg.oracle p.1 p.2 = some n) →
      ∃ st1, check_region cfg st r = some (st1, true) ∧
        st1.mines_left = st.mines_left ∧
        ∀ p ∈ r.fields, inGrid st p →
          ∃ n, cfg.oracle p.1 p.2 = some n ∧ cellType st1 p.1 p.2 = n) ∧
    (r.mines_min = (r.fields.card : Int) → r.mines_max = (r.fields.card : Int) →
      r.fields ≠ ∅ →
      check_region cfg st r = some (markList st (fieldList r.fields), true) ∧
      (markList st (fieldList r.fields)).mines_left
        = st.mines_left - (r.fields.card : Int) ∧
      ∀ p ∈ r.fields, inGrid st p →
        cellType (markList st (fieldList r.fields)) p.1 p.2 = 9) := by
  constructor
  · intro hmin hmax hne horacle
    have hcard : r.fields.card ≠ 0 := fun hh => hne (Finset.card_eq_zero.mp hh)
    have hc1 : ¬(r.fields.card = 0 ∨ r.mines_min ≠ r.mines_max) := by
      push_neg
      exact ⟨hcard, by rw [hmin, hmax]⟩
    obtain ⟨st2, hrun, hml, _, _, _, hin⟩ :=
      sweepList_spec cfg (fieldList r.fields) st
        (fun p hp => horacle p (fieldList_mem.mp hp))
    refine ⟨st2, ?_, hml, ?_⟩
    · unfold check_region
      rw [if_neg hc1, if_pos hmin, hrun]
    · intro p hp hg
      exact hin p (fieldList_mem.mpr hp) hg
  · intro hmin hmax hne
    have hcard : r.fields.card ≠ 0 := fun hh => hne (Finset.card_eq_zero.mp hh)
    have hc1 : ¬(r.fields.card = 0 ∨ r.mines_min ≠ r.mines_max) := by
      push_neg
      exact ⟨hcard, by rw [hmin, hmax]⟩
    have hc2 : ¬(r.mines_min = 0) := by
      rw [hmin]
      exact Int.natCast_ne_zero.mpr hcard
    obtain ⟨hml, _, _, _, hin⟩ := markList_spec (fieldList r.fields) st
    refine ⟨?_, ?_, ?_⟩
    · unfold check_region
      rw [if_neg hc1, if_neg hc2, if_pos hmin]
    · rw [hml, fieldList_length]
    · intro p hp hg
      exact hin p (fieldList_mem.mpr hp) hg

/-- Witness for C8: a collapsed-to-0 region over two cells reveals both and
leaves `mines_left` at 3; a collapsed-to-size region over two cells marks
both and drops `mines_left` from 3 to 1. -/
theorem claim8_collapsed_effects_witness :
    (∃ st1, check_region ⟨2, 1, fun _ _ => some 0⟩ ⟨[[10], [10]], 3⟩
        ⟨0, 0, {(0, 0), (1, 0)}⟩ = some (st1, true) ∧
      st1.mines_left = (3 : Int) ∧
      ∀ p ∈ ({(0, 0), (1, 0)} : Finset (Nat × Nat)),
        inGrid ⟨[[10], [10]], 3⟩ p →
        ∃ n, (fun (_ _ : Nat) => some 0) p.1 p.2 = some n ∧
          cellType st1 p.1 p.2 = n) ∧
    (check_region ⟨2, 1, fun _ _ => some 0⟩ ⟨[[10], [10]], 3⟩ ⟨2, 2, {(0, 0), (1, 0)}⟩
      = some (markList ⟨[[10], [10]], 3⟩ (fieldList {(0, 0), (1, 0)}), true) ∧
      (markList (⟨[[10], [10]], 3⟩ : GState) (fieldList {(0, 0), (1, 0)})).mines_left
        = (3 : Int) - ((({(0, 0), (1, 0)} : Finset (Nat × Nat)).card : Int))) := by
  constructor
  · exact (claim8_collapsed_effects ⟨2, 1, fun _ _ => some 0⟩ ⟨[[10], [10]], 3⟩
      ⟨0, 0, {(0, 0), (1, 0)}⟩).1 rfl rfl (by decide) (fun p _ => ⟨0, rfl⟩)
  · obtain ⟨h1, h2, _⟩ := (claim8_collapsed_effects ⟨2, 1, fun _ _ => some 0⟩
      ⟨[[10], [10]], 3⟩ ⟨2, 2, {(0, 0), (1, 0)}⟩).2 (by decide) (by decide) (by decide)
    exact ⟨h1, h2⟩

/-! ## Claim C4: the loss outcome -/

/-- `sweep_field` produces the loss outcome exactly when the oracle reports
that the swept cell was a mine. -/
theorem sweep_field_none_iff (cfg : Config) (st : GState) (x y : Nat) :
    sweep_field cfg st x y = none ↔ cfg.oracle x y = none := by
  unfold sweep_field
  rcases h : cfg.oracle x y with _ | n <;> simp

/-- If the oracle never reports a mine, the extraction scan never produces
the loss outcome. -/
theorem find_go_total (cfg : Config) (horr : ∀ x y, cfg.oracle x y ≠ none) :
    ∀ (l : List (Nat × Nat)) (st : GState) (m0 : Bool) (rs : List Region),
      find_go cfg st m0 rs l ≠ none := by
  intro l
  induction l with
  | nil =>
    intro st m0 rs h
    simp only [find_go] at h
    exact Option.noConfusion h
  | cons p rest ih =>
    intro st m0 rs h
    obtain ⟨x, y⟩ := p
    simp only [find_go] at h
    split at h
    · exact ih st m0 rs h
    · split at h
      · exact ih st m0 rs h
      · split at h
        · exact ih st m0 rs h
        · split at h
          · rename_i heq
            exact check_region_total cfg horr _ _ heq
          · rename_i st1 m heq
            exact ih st1 _ _ h

/-- If the oracle never reports a mine, one iteration of the solver loop
never produces the loss outcome. -/
theorem loop_step_total (cfg : Config) (horr : ∀ x y, cfg.oracle x y ≠ none) :
    ∀ (st : GState) (guess : Nat), loop_step cfg st guess ≠ none := by
  intro st guess h
  unfold loop_step at h
  split at h
  · rename_i heq
    exact find_go_total cfg horr _ _ _ _ heq
  · rename_i st1 modified regions heq
    split at h
    · exact Option.noConfusion h
    · split at h
      · rename_i heq2
        exact split_fuel_total cfg horr _ _ _ heq2
      · rename_i st2 l2 m2 heq2
        split at h
        · exact Option.noConfusion h
        · split at h
          · dsimp only at h
            split at h
            · rename_i heq3
              exact sweepList_total cfg horr _ _ heq3
            · exact Option.noConfusion h
          · dsimp only at h
            split at h
            · exact Option.noConfusion h
            · split at h
              · rename_i heq4
                exact horr _ _ ((sweep_field_none_iff ..).mp heq4)
              · exact Option.noConfusion h

/-- Claim C4: the claimed checked-loss structure is absent from the source.
The code's `sweep_field` (lines 110–112) converts the oracle result
unconditionally and surfaces no loss variant, and the main loop
(lines 257–284) never checks any reveal's outcome.  Evaluated at a failing
input — a 1×1 board whose only cell is an unswept actual mine, so the
iteration falls through to the fallback guess (line 284) and sweeps the
mine — the iteration produces no outcome at all: the loss aborts it whole
(the shallow rendering of the unhandled oracle mine report), and the loop
has nothing it could check. -/
theorem claim4_loss_at_failing_input :
    loop_step ⟨1, 1, fun _ _ => none⟩ ⟨[[10]], 1⟩ 0 = none := by decide

/-! ## Claim C9: `mines_left = 0` finishes the solve -/

theorem find_remaining_mem (cfg : Config) (st : GState) (p : Nat × Nat) :
    p ∈ find_remaining cfg st ↔
      p.1 < cfg.width ∧ p.2 < cfg.height ∧ cellType st p.1 p.2 = 10 := by
  unfold find_remaining
  simp only [List.mem_flatMap, List.mem_filterMap, List.mem_range]
  constructor
  · rintro ⟨y, hy, x, hx, hfx⟩
    split_ifs at hfx with hc
    injection hfx with hp
    subst hp
    exact ⟨hx, hy, hc⟩
  · rintro ⟨h1, h2, h3⟩
    exact ⟨p.2, h2, p.1, h1, by rw [if_pos h3]⟩

/-- Claim C9: when the extraction pass and the split pass both report no
mutation and `mines_left = 0`, the loop iteration reveals every remaining
Unknown cell (with its oracle count, no further region analysis), the
remaining set becomes empty, and the iteration terminates with the solved
outcome. -/
theorem claim9_zero_mines_finish (cfg : Config) (st st1 : GState)
    (regions l2 : List Region) (st2 : GState) (guess : Nat)
    (h1 : find_regions cfg st = some (st1, false, regions))
    (h2 : split_regions cfg st1 regions 0 = some (st2, l2, false))
    (h3 : st2.mines_left = 0)
    (h4 : ∀ p ∈ find_remaining cfg st2, ∃ n, cfg.oracle p.1 p.2 = some n ∧ n ≤ 8)
    (h5 : ∀ p ∈ find_remaining cfg st2, inGrid st2 p) :
    ∃ st3, loop_step cfg st guess = some (.solved st3) ∧
      (∀ p ∈ find_remaining cfg st2, ∃ n, cfg.oracle p.1 p.2 = some n ∧
        cellType st3 p.1 p.2 = n) ∧
      find_remaining cfg st3 = [] := by
  obtain ⟨st3, hrun, hml, hlen, hcol, hout, hin⟩ :=
    sweepList_spec cfg (find_remaining cfg st2) st2
      (fun p hp => (h4 p hp).imp (fun n hn => hn.1))
  refine ⟨st3, ?_, ?_, ?_⟩
  · unfold loop_step
    rw [h1]
    dsimp only
    rw [if_neg Bool.false_ne_true, h2]
    dsimp only
    rw [if_neg Bool.false_ne_true]
    rw [if_pos h3, hrun]
  · intro p hp
    obtain ⟨n, hn, _⟩ := h4 p hp
    obtain ⟨m, hm, hcell⟩ := hin p hp (h5 p hp)
    rw [hm] at hn
    injection hn with hnm
    exact ⟨n, hm.trans (by rw [hnm]), by rw [hcell, hnm]⟩
  · rw [List.eq_nil_iff_forall_not_mem]
    intro q hq
    rw [find_remaining_mem] at hq
    obtain ⟨hq1, hq2, hq3⟩ := hq
    by_cases hmem : q ∈ find_remaining cfg st2
    · obtain ⟨n, hn, hcell⟩ := hin q hmem (h5 q hmem)
      obtain ⟨n2, hn2, hle⟩ := h4 q hmem
      rw [hn2] at hn
      injection hn with hnn
      rw [hcell] at hq3
      omega
    · rw [hout q hmem] at hq3
      exact hmem ((find_remaining_mem cfg st2 q).mpr ⟨hq1, hq2, hq3⟩)

/-- Witness for C9: a 1×1 board with no mines and the single cell still
Unknown; the iteration sweeps it and finishes solved. -/
theorem claim9_zero_mines_finish_witness :
    ∃ st3, loop_step ⟨1, 1, fun _ _ => some 0⟩ ⟨[[10]], 0⟩ 0
        = some (.solved st3) ∧
      (∀ p ∈ find_remaining ⟨1, 1, fun _ _ => some 0⟩ ⟨[[10]], 0⟩,
        ∃ n, (fun (_ _ : Nat) => some 0) p.1 p.2 = some n ∧
          cellType st3 p.1 p.2 = n) ∧
      find_remaining ⟨1, 1, fun _ _ => some 0⟩ st3 = [] :=
  claim9_zero_mines_finish ⟨1, 1, fun _ _ => some 0⟩ ⟨[[10]], 0⟩ ⟨[[10]], 0⟩ [] []
    ⟨[[10]], 0⟩ 0 (by decide) (by decide) rfl
    (fun p _ => ⟨0, rfl, by omega⟩) (by decide)

/-! ## Claim C3: which cells yield extractor regions -/

/-- The cells claim C3 says regions are derived for, stated from the claim's
words: currently `Revealed(count)` with `count > 0` and at least one Unknown
neighbour. -/
def claim3_qualifies (cfg : Config) (st : GState) (x y : Nat) : Prop :=
  1 ≤ cellType st x y ∧ cellType st x y ≤ 8 ∧
    find_adjacent_type cfg st x y 10 ≠ ∅

instance (cfg : Config) (st : GState) (x y : Nat) :
    Decidable (claim3_qualifies cfg st x y) := by
  unfold claim3_qualifies; infer_instance

/-- The region contribution of one scanned cell, evaluated against a fixed
board state: skip Mine and Unknown cells, skip cells with no Unknown
neighbour, skip exact-duplicate field sets, otherwise append the region
`⟨count − |M|, count − |M|, U⟩`. -/
def spec_step (cfg : Config) (st : GState) (acc : List Region) (p : Nat × Nat) :
    List Region :=
  if cellType st p.1 p.2 = 9 ∨ cellType st p.1 p.2 = 10 then acc
  else if (find_adjacent_type cfg st p.1 p.2 10).card = 0 then acc
  else if acc.any (fun other =>
      other.fields = find_adjacent_type cfg st p.1 p.2 10) then acc
  else acc ++
    [⟨(cellType st p.1 p.2 : Int) - ((find_adjacent_type cfg st p.1 p.2 9).card : Int),
      (cellType st p.1 p.2 : Int) - ((find_adjacent_type cfg st p.1 p.2 9).card : Int),
      find_adjacent_type cfg st p.1 p.2 10⟩]

/-- The full extraction pass against a fixed board state. -/
def spec_regions (cfg : Config) (st : GState) : List Region :=
  (coordList cfg).foldl (spec_step cfg st) []

/-- A mutation-free extraction scan equals the pure per-cell scan of
`spec_step` over the initial state. -/
theorem find_go_pure (cfg : Config) :
    ∀ (l : List (Nat × Nat)) (st : GState) (m0 : Bool) (acc : List Region)
      (st1 : GState) (regions : List Region),
      find_go cfg st m0 acc l = some (st1, false, regions) →
      st1 = st ∧ m0 = false ∧ regions = l.foldl (spec_step cfg st) acc := by
  intro l
  induction l with
  | nil =>
    intro st m0 acc st1 regions h
    simp only [find_go, Option.some_inj, Prod.mk.injEq] at h
    exact ⟨h.1.symm, h.2.1, h.2.2.symm⟩
  | cons p rest ih =>
    intro st m0 acc st1 regions h
    obtain ⟨x, y⟩ := p
    simp only [find_go] at h
    split at h
    · rename_i hskip
      obtain ⟨ha, hb, hc⟩ := ih st m0 acc st1 regions h
      refine ⟨ha, hb, ?_⟩
      rw [List.foldl_cons,
        show spec_step cfg st acc (x, y) = acc from by
          simp only [spec_step]
          rw [if_pos hskip]]
      exact hc
    · rename_i hskip
      split at h
      · rename_i hU
        obtain ⟨ha, hb, hc⟩ := ih st m0 acc st1 regions h
        refine ⟨ha, hb, ?_⟩
        rw [List.foldl_cons,
          show spec_step cfg st acc (x, y) = acc from by
            simp only [spec_step]
            rw [if_neg hskip, if_pos hU]]
        exact hc
      · rename_i hU
        split at h
        · rename_i hdup
          obtain ⟨ha, hb, hc⟩ := ih st m0 acc st1 regions h
          refine ⟨ha, hb, ?_⟩
          rw [List.foldl_cons,
            show spec_step cfg st acc (x, y) = acc from by
              simp only [spec_step]
              rw [if_neg hskip, if_neg hU, if_pos hdup]]
          exact hc
        · rename_i hdup
          split at h
          · exact Option.noConfusion h
          · rename_i st2 m heq
            obtain ⟨ha, hb, hc⟩ := ih st2 (m0 || m) _ st1 regions h
            obtain ⟨hb0, hbm⟩ := Bool.or_eq_false_iff.mp hb
            have hst2 : st2 = st := check_region_false_frame (hbm ▸ heq)
            rw [hst2] at ha hc
            refine ⟨ha, hb0, ?_⟩
            rw [List.foldl_cons,
              show spec_step cfg st acc (x, y) = acc ++
                [⟨(cellType st x y : Int) - ((find_adjacent_type cfg st x y 9).card : Int),
                  (cellType st x y : Int) - ((find_adjacent_type cfg st x y 9).card : Int),
                  find_adjacent_type cfg st x y 10⟩] from by
                simp only [spec_step]
                rw [if_neg hskip, if_neg hU, if_neg hdup]]
            exact hc

/-- Claim C3 (amended): when the extraction pass reports no mutation, the
board is returned untouched and the returned list contains exactly one
region per scanned cell that is `Revealed(count)` — any count `0`–`8`,
zero included — with at least one Unknown neighbour and a field set not
identical to an earlier collected region's, in scan order; each such region
has `mines_min = mines_max = count − |M|` and `fields = U`; Mine cells,
Unknown cells and cells with empty `U` yield no region. -/
theorem claim3_extractor_regions (cfg : Config) (st st1 : GState)
    (regions : List Region)
    (h : find_regions cfg st = some (st1, false, regions)) :
    st1 = st ∧ regions = spec_regions cfg st := by
  obtain ⟨ha, _, hc⟩ := find_go_pure cfg (coordList cfg) st false [] st1 regions h
  exact ⟨ha, hc⟩

/-- Witness for the amended C3: a stable 3×1 board (a `Revealed(1)` cell with
two Unknown neighbours) where the pass reports no mutation and returns
exactly the spec-level region list. -/
theorem claim3_extractor_regions_witness :
    find_regions ⟨3, 1, fun _ _ => some 1⟩ ⟨[[10], [1], [10]], 1⟩
      = some (⟨[[10], [1], [10]], 1⟩, false, [⟨1, 1, {(0, 0), (2, 0)}⟩]) ∧
    (⟨[[10], [1], [10]], 1⟩ : GState) = ⟨[[10], [1], [10]], 1⟩ ∧
    [(⟨1, 1, {(0, 0), (2, 0)}⟩ : Region)]
      = spec_regions ⟨3, 1, fun _ _ => some 1⟩ ⟨[[10], [1], [10]], 1⟩ := by
  have h : find_regions ⟨3, 1, fun _ _ => some 1⟩ ⟨[[10], [1], [10]], 1⟩
      = some (⟨[[10], [1], [10]], 1⟩, false, [⟨1, 1, {(0, 0), (2, 0)}⟩]) := by decide
  obtain ⟨h1, h2⟩ := claim3_extractor_regions _ _ _ _ h
  exact ⟨h, h1, h2⟩

/-- Counterexample to claim C3 as stated: on a 1×2 board whose cell `(0,0)`
is `Revealed(0)` with the Unknown neighbour `(0,1)`, no cell qualifies under
the claim's `count > 0` condition, yet `find_regions` derives a region — for
the count-0 cell — and even acts on it (revealing the neighbour). -/
theorem claim3_counterexample :
    (∀ x, x < 1 → ∀ y, y < 2 →
      ¬claim3_qualifies ⟨1, 2, fun _ _ => some 0⟩ ⟨[[0, 10]], 1⟩ x y) ∧
    find_regions ⟨1, 2, fun _ _ => some 0⟩ ⟨[[0, 10]], 1⟩
      = some (⟨[[0, 0]], 1⟩, true, [⟨0, 0, {(0, 1)}⟩]) := by decide

/-! ## Claim C1: the bound invariant -/

theorem mem_neighborhood (cfg : Config) (x y : Nat) (p : Nat × Nat)
    (hp : p ∈ neighborhood cfg x y) : p.1 < cfg.width ∧ p.2 < cfg.height := by
  unfold neighborhood at hp
  simp only [Finset.mem_filter, Finset.mem_product, Finset.mem_Ico] at hp
  obtain ⟨⟨⟨_, h1⟩, _, h2⟩, _⟩ := hp
  exact ⟨lt_of_lt_of_le h1 (min_le_right _ _), lt_of_lt_of_le h2 (min_le_right _ _)⟩

/-- A cell strictly inside the board has at most 8 true adjacent mines. -/
theorem adjMines_le_8 (cfg : Config) (mines : Nat × Nat → Bool) (x y : Nat)
    (hx : x < cfg.width) (hy : y < cfg.height) : adjMines cfg mines x y ≤ 8 := by
  unfold adjMines countMines
  have h1 : (neighborhood cfg x y).filter (fun p => mines p = true) ⊆
      ((Finset.Ico (x - 1) (min (x + 2) cfg.width) ×ˢ
        Finset.Ico (y - 1) (min (y + 2) cfg.height)).erase (x, y)) := by
    intro p hp
    simp only [neighborhood, Finset.mem_filter] at hp
    obtain ⟨⟨hmem, hne⟩, _⟩ := hp
    refine Finset.mem_erase.mpr ⟨?_, hmem⟩
    intro hpe
    exact hne (by rw [hpe]; exact ⟨rfl, rfl⟩)
  have h2 : (x, y) ∈ (Finset.Ico (x - 1) (min (x + 2) cfg.width) ×ˢ
      Finset.Ico (y - 1) (min (y + 2) cfg.height)) := by
    simp only [Finset.mem_product, Finset.mem_Ico]
    refine ⟨⟨?_, ?_⟩, ?_, ?_⟩ <;> omega
  have h3 := Finset.card_le_card h1
  rw [Finset.card_erase_of_mem h2, Finset.card_product] at h3
  have h4 : (Finset.Ico (x - 1) (min (x + 2) cfg.width)).card ≤ 3 := by
    rw [Nat.card_Ico]; omega
  have h5 : (Finset.Ico (y - 1) (min (y + 2) cfg.height)).card ≤ 3 := by
    rw [Nat.card_Ico]; omega
  have h6 := Nat.mul_le_mul h4 h5
  omega

/-- On a consistent board, the extractor's `count − |M|` for a revealed cell
is exactly the number of true mines among its Unknown neighbours. -/
theorem region_truth (cfg : Config) (mines : Nat × Nat → Bool) (st : GState)
    (hcons : consistent cfg mines st) {x y : Nat} (hx : x < cfg.width)
    (hy : y < cfg.height) (ht : cellType st x y ≤ 8) :
    (cellType st x y : Int) - ((find_adjacent_type cfg st x y 9).card : Int)
      = (countMines mines (find_adjacent_type cfg st x y 10) : Int) := by
  obtain ⟨_, _, hcell⟩ := hcons
  have hcount : cellType st x y = adjMines cfg mines x y := ((hcell x hx y hy).2.1 ht).2
  have hMT : find_adjacent_type cfg st x y 9 ⊆
      (neighborhood cfg x y).filter (fun p => mines p = true) := by
    intro p hp
    simp only [find_adjacent_type, Finset.mem_filter] at hp ⊢
    obtain ⟨hN, h9⟩ := hp
    obtain ⟨hpx, hpy⟩ := mem_neighborhood cfg x y p hN
    exact ⟨hN, (hcell p.1 hpx p.2 hpy).2.2 h9⟩
  have hUT : (find_adjacent_type cfg st x y 10).filter (fun p => mines p = true)
      = ((neighborhood cfg x y).filter (fun p => mines p = true)) \
        (find_adjacent_type cfg st x y 9) := by
    ext p
    simp only [find_adjacent_type, Finset.mem_filter, Finset.mem_sdiff]
    constructor
    · rintro ⟨⟨hN, h10⟩, hm⟩
      exact ⟨⟨hN, hm⟩, fun hc => by omega⟩
    · rintro ⟨⟨hN, hm⟩, hnot⟩
      refine ⟨⟨hN, ?_⟩, hm⟩
      obtain ⟨hpx, hpy⟩ := mem_neighborhood cfg x y p hN
      have h10 := (hcell p.1 hpx p.2 hpy).1
      have h9 : cellType st p.1 p.2 ≠ 9 := fun hc => hnot ⟨hN, hc⟩
      by_contra hne
      have h8 : cellType st p.1 p.2 ≤ 8 := by omega
      have hfalse := ((hcell p.1 hpx p.2 hpy).2.1 h8).1
      rw [hfalse] at hm
      exact Bool.noConfusion hm
  have hle := Finset.card_le_card hMT
  have hcard : countMines mines (find_adjacent_type cfg st x y 10)
      = ((neighborhood cfg x y).filter (fun p => mines p = true)).card
        - (find_adjacent_type cfg st x y 9).card := by
    unfold countMines
    rw [hUT, Finset.card_sdiff hMT]
  unfold adjMines countMines at hcount
  rw [hcount, hcard]
  omega

/-- Revealing the true adjacent count of a safe in-board cell preserves
consistency. -/
theorem consistent_setCell_safe (cfg : Config) (mines : Nat × Nat → Bool)
    (st : GState) (hcons : consistent cfg mines st) {p : Nat × Nat}
    (hx : p.1 < cfg.width) (hy : p.2 < cfg.height) (hm : mines p = false) :
    consistent cfg mines (setCell st p.1 p.2 (adjMines cfg mines p.1 p.2)) := by
  obtain ⟨hlen, hcol, hcell⟩ := hcons
  have hx2 : p.1 < st.playarea.length := by rw [hlen]; exact hx
  have hgetD : st.playarea.getD p.1 [] = st.playarea[p.1] := by
    rw [List.getD_eq_getElem?_getD, List.getElem?_eq_getElem hx2]
    rfl
  refine ⟨?_, ?_, ?_⟩
  · rw [playarea_length_setCell]; exact hlen
  · intro col hc
    rcases List.mem_or_eq_of_mem_set hc with hc2 | rfl
    · exact hcol col hc2
    · rw [List.length_set, hgetD]
      exact hcol _ (List.getElem_mem _)
  · intro a ha b hb
    by_cases hab : a = p.1 ∧ b = p.2
    · obtain ⟨rfl, rfl⟩ := hab
      have hg : inGrid st (p.1, p.2) := by
        refine ⟨hx2, ?_⟩
        show p.2 < (st.playarea.getD p.1 []).length
        rw [hgetD, hcol _ (List.getElem_mem _)]
        exact hy
      rw [cellType_setCell_self st _ hg]
      have h8 := adjMines_le_8 cfg mines p.1 p.2 hx hy
      exact ⟨by omega, fun _ => ⟨hm, rfl⟩, fun h9 => absurd h9 (by omega)⟩
    · rw [cellType_setCell_other st _ hab]
      exact hcell a ha b hb

/-- Marking a true in-board mine preserves consistency. -/
theorem consistent_markCell (cfg : Config) (mines : Nat × Nat → Bool)
    (st : GState) (hcons : consistent cfg mines st) {p : Nat × Nat}
    (hx : p.1 < cfg.width) (hy : p.2 < cfg.height) (hm : mines p = true) :
    consistent cfg mines (markCell st p) := by
  obtain ⟨hlen, hcol, hcell⟩ := hcons
  have hx2 : p.1 < st.playarea.length := by rw [hlen]; exact hx
  have hgetD : st.playarea.getD p.1 [] = st.playarea[p.1] := by
    rw [List.getD_eq_getElem?_getD, List.getElem?_eq_getElem hx2]
    rfl
  refine ⟨?_, ?_, ?_⟩
  · show (setCell st p.1 p.2 9).playarea.length = cfg.width
    rw [playarea_length_setCell]; exact hlen
  · intro col hc
    rcases List.mem_or_eq_of_mem_set hc with hc2 | rfl
    · exact hcol col hc2
    · rw [List.length_set, hgetD]
      exact hcol _ (List.getElem_mem _)
  · intro a ha b hb
    rw [show cellType (markCell st p) a b = cellType (setCell st p.1 p.2 9) a b from rfl]
    by_cases hab : a = p.1 ∧ b = p.2
    · obtain ⟨rfl, rfl⟩ := hab
      have hg : inGrid st (p.1, p.2) := by
        refine ⟨hx2, ?_⟩
        show p.2 < (st.playarea.getD p.1 []).length
        rw [hgetD, hcol _ (List.getElem_mem _)]
        exact hy
      rw [cellType_setCell_self st _ hg]
      exact ⟨by omega, fun h8 => absurd h8 (by omega), fun _ => hm⟩
    · rw [cellType_setCell_other st _ hab]
      exact hcell a ha b hb

/-- Revealing a list of safe in-board cells succeeds and preserves
consistency. -/
theorem consistent_sweep_region (cfg : Config) (mines : Nat × Nat → Bool)
    (horacle : oracleMatches cfg mines) :
    ∀ (l : List (Nat × Nat)) (st : GState), consistent cfg mines st →
      (∀ p ∈ l, (p.1 < cfg.width ∧ p.2 < cfg.height) ∧ mines p = false) →
      ∃ st2, sweepList cfg st l = some st2 ∧ consistent cfg mines st2 := by
  intro l
  induction l with
  | nil => exact fun st h _ => ⟨st, rfl, h⟩
  | cons p rest ih =>
    intro st hcons hl
    obtain ⟨⟨hx, hy⟩, hm⟩ := hl p (List.mem_cons_self p rest)
    have ho : cfg.oracle p.1 p.2 = some (adjMines cfg mines p.1 p.2) := by
      rw [horacle p.1 hx p.2 hy]
      simp [Prod.mk.eta, hm]
    have hstep : sweepList cfg st (p :: rest) =
        sweepList cfg (setCell st p.1 p.2 (adjMines cfg mines p.1 p.2)) rest := by
      simp [sweepList, sweep_field, ho]
    obtain ⟨st2, hrun, hc2⟩ := ih _ (consistent_setCell_safe cfg mines st hcons hx hy hm)
      (fun q hq => hl q (List.mem_cons_of_mem _ hq))
    exact ⟨st2, hstep ▸ hrun, hc2⟩

/-- Marking a list of true in-board mines preserves consistency. -/
theorem consistent_mark_region (cfg : Config) (mines : Nat × Nat → Bool) :
    ∀ (l : List (Nat × Nat)) (st : GState), consistent cfg mines st →
      (∀ p ∈ l, (p.1 < cfg.width ∧ p.2 < cfg.height) ∧ mines p = true) →
      consistent cfg mines (markList st l) := by
  intro l
  induction l with
  | nil => exact fun st h _ => h
  | cons p rest ih =>
    intro st hcons hl
    obtain ⟨⟨hx, hy⟩, hm⟩ := hl p (List.mem_cons_self p rest)
    exact ih _ (consistent_markCell cfg mines st hcons hx hy hm)
      (fun q hq => hl q (List.mem_cons_of_mem _ hq))

/-- `check_region` on a region whose bounds are the true mine count of its
(in-board) fields succeeds and preserves consistency. -/
theorem check_region_consistent (cfg : Config) (mines : Nat × Nat → Bool)
    (horacle : oracleMatches cfg mines) (st : GState) (r : Region)
    (hcons : consistent cfg mines st)
    (hb : ∀ p ∈ r.fields, p.1 < cfg.width ∧ p.2 < cfg.height)
    (hmin : r.mines_min = (countMines mines r.fields : Int))
    (_hmax : r.mines_max = (countMines mines r.fields : Int)) :
    ∃ st2 m, check_region cfg st r = some (st2, m) ∧ consistent cfg mines st2 := by
  unfold check_region
  split_ifs with h1 h2 h3
  · exact ⟨st, false, rfl, hcons⟩
  · have hzero : countMines mines r.fields = 0 := by
      rw [hmin] at h2
      exact_mod_cast h2
    have hsafe : ∀ p ∈ r.fields, mines p = false := by
      intro p hp
      have hemp := Finset.card_eq_zero.mp hzero
      by_contra hm
      have hmem : p ∈ r.fields.filter (fun q => mines q = true) :=
        Finset.mem_filter.mpr ⟨hp, by revert hm; cases mines p <;> simp⟩
      rw [hemp] at hmem
      exact absurd hmem (Finset.not_mem_empty p)
    obtain ⟨st2, hrun, hc2⟩ := consistent_sweep_region cfg mines horacle
      (fieldList r.fields) st hcons (fun p hp =>
        ⟨hb p (fieldList_mem.mp hp), hsafe p (fieldList_mem.mp hp)⟩)
    rw [hrun]
    exact ⟨st2, true, rfl, hc2⟩
  · have hcc : countMines mines r.fields = r.fields.card := by
      rw [hmin] at h3
      exact_mod_cast h3
    have hall : ∀ p ∈ r.fields, mines p = true := by
      have hsub : r.fields.filter (fun q => mines q = true) = r.fields :=
        Finset.eq_of_subset_of_card_le (Finset.filter_subset _ _) (le_of_eq hcc.symm)
      intro p hp
      have hmem : p ∈ r.fields.filter (fun q => mines q = true) := by
        rw [hsub]
        exact hp
      exact (Finset.mem_filter.mp hmem).2
    refine ⟨_, true, rfl, ?_⟩
    exact consistent_mark_region cfg mines (fieldList r.fields) st hcons
      (fun p hp => ⟨hb p (fieldList_mem.mp hp), hall p (fieldList_mem.mp hp)⟩)
  · exact ⟨st, false, rfl, hcons⟩

/-- A region's bounds are both the true mine count of its field set. -/
abbrev regionInv (mines : Nat × Nat → Bool) (r : Region) : Prop :=
  r.mines_min = (countMines mines r.fields : Int) ∧
  r.mines_max = (countMines mines r.fields : Int)

theorem coordList_bounds (cfg : Config) {p : Nat × Nat} (hp : p ∈ coordList cfg) :
    p.1 < cfg.width ∧ p.2 < cfg.height := by
  unfold coordList at hp
  simp only [List.mem_flatMap, List.mem_map, List.mem_range] at hp
  obtain ⟨y, hy, x, hx, rfl⟩ := hp
  exact ⟨hx, hy⟩

/-- On a consistent board the extraction scan succeeds, keeps the board
consistent, and every region it collects has bounds equal to the true mine
count of its fields. -/
theorem find_go_inv (cfg : Config) (mines : Nat × Nat → Bool)
    (horacle : oracleMatches cfg mines) :
    ∀ (l : List (Nat × Nat)), (∀ p ∈ l, p.1 < cfg.width ∧ p.2 < cfg.height) →
      ∀ (st : GState) (m0 : Bool) (rs : List Region), consistent cfg mines st →
        (∀ r ∈ rs, regionInv mines r) →
        ∃ out, find_go cfg st m0 rs l = some out ∧ consistent cfg mines out.1 ∧
          ∀ r ∈ out.2.2, regionInv mines r := by
  intro l
  induction l with
  | nil => exact fun _ st m0 rs hcons hrs => ⟨(st, m0, rs), rfl, hcons, hrs⟩
  | cons p rest ih =>
    intro hb st m0 rs hcons hrs
    obtain ⟨x, y⟩ := p
    obtain ⟨hx, hy⟩ := hb (x, y) (List.mem_cons_self _ rest)
    have hbrest := fun q hq => hb q (List.mem_cons_of_mem _ hq)
    simp only [find_go]
    split_ifs with hskip hU hdup
    · exact ih hbrest st m0 rs hcons hrs
    · exact ih hbrest st m0 rs hcons hrs
    · exact ih hbrest st m0 rs hcons hrs
    · have ht : cellType st x y ≤ 8 := by
        have h10 := (hcons.2.2 x hx y hy).1
        push_neg at hskip
        omega
      have htruth := region_truth cfg mines st hcons hx hy ht
      have hbf : ∀ q ∈ find_adjacent_type cfg st x y 10,
          q.1 < cfg.width ∧ q.2 < cfg.height := fun q hq =>
        mem_neighborhood cfg x y q (Finset.mem_filter.mp hq).1
      have htmin : (⟨(cellType st x y : Int) - ((find_adjacent_type cfg st x y 9).card : Int),
          (cellType st x y : Int) - ((find_adjacent_type cfg st x y 9).card : Int),
          find_adjacent_type cfg st x y 10⟩ : Region).mines_min
          = (countMines mines (⟨(cellType st x y : Int) -
              ((find_adjacent_type cfg st x y 9).card : Int),
            (cellType st x y : Int) - ((find_adjacent_type cfg st x y 9).card : Int),
            find_adjacent_type cfg st x y 10⟩ : Region).fields : Int) := htruth
      obtain ⟨st2, m, hcheck, hc2⟩ := check_region_consistent cfg mines horacle st
        ⟨(cellType st x y : Int) - ((find_adjacent_type cfg st x y 9).card : Int),
          (cellType st x y : Int) - ((find_adjacent_type cfg st x y 9).card : Int),
          find_adjacent_type cfg st x y 10⟩ hcons hbf htmin htmin
      rw [hcheck]
      obtain ⟨out, hrun, hco, hro⟩ := ih hbrest st2 (m0 || m) _ hc2
        (fun r hr => by
          rcases List.mem_append.mp hr with hr2 | hr2
          · exact hrs r hr2
          · rw [List.mem_singleton.mp hr2]
            exact ⟨htmin, htmin⟩)
      exact ⟨out, hrun, hco, hro⟩

/-- Claim C1 (amended): (a) every region produced by `find_regions` on a
board consistent with the real mine configuration satisfies the full bound
invariant `0 ≤ mines_min ≤ mines_max ≤ |fields|`; (b) every region derived
by `split_regions` from two regions A, B jointly satisfied by some mine
configuration satisfies `0 ≤ mines_min ≤ mines_max` and
`mines_min ≤ |fields|` — but the upper half `mines_max ≤ |fields|` of the
claimed invariant can fail for derived regions (see the counterexample). -/
theorem claim1_bound_invariant :
    (∀ (cfg : Config) (mines : Nat × Nat → Bool) (st : GState),
      oracleMatches cfg mines → consistent cfg mines st →
      ∃ out, find_regions cfg st = some out ∧
        ∀ r ∈ out.2.2, 0 ≤ r.mines_min ∧ r.mines_min ≤ r.mines_max ∧
          r.mines_max ≤ (r.fields.card : Int)) ∧
    (∀ (A B : Region) (mines : Nat × Nat → Bool),
      A.mines_min ≤ (countMines mines A.fields : Int) →
      (countMines mines A.fields : Int) ≤ A.mines_max →
      B.mines_min ≤ (countMines mines B.fields : Int) →
      (countMines mines B.fields : Int) ≤ B.mines_max →
      ∀ r ∈ [(split_pair A B).1, (split_pair A B).2.1, (split_pair A B).2.2],
        0 ≤ r.mines_min ∧ r.mines_min ≤ r.mines_max ∧
          r.mines_min ≤ (r.fields.card : Int)) := by
  constructor
  · intro cfg mines st horacle hcons
    obtain ⟨out, hrun, _, hro⟩ := find_go_inv cfg mines horacle (coordList cfg)
      (fun p hp => coordList_bounds cfg hp) st false []
      hcons (fun r hr => absurd hr (List.not_mem_nil r))
    refine ⟨out, hrun, ?_⟩
    intro r hr
    obtain ⟨hrmin, hrmax⟩ := hro r hr
    have hcle : countMines mines r.fields ≤ r.fields.card := Finset.card_filter_le _ _
    refine ⟨by rw [hrmin]; exact_mod_cast Nat.zero_le _, by rw [hrmin, hrmax], ?_⟩
    rw [hrmax]
    exact_mod_cast hcle
  · intro A B mines hA1 hA2 hB1 hB2 r hr
    have hs := split_pair_sound A B mines hA1 hA2 hB1 hB2
    have hCle : countMines mines (split_pair A B).1.fields
        ≤ (split_pair A B).1.fields.card := Finset.card_filter_le _ _
    have hDle : countMines mines (split_pair A B).2.1.fields
        ≤ (split_pair A B).2.1.fields.card := Finset.card_filter_le _ _
    have hEle : countMines mines (split_pair A B).2.2.fields
        ≤ (split_pair A B).2.2.fields.card := Finset.card_filter_le _ _
    simp only [List.mem_cons, List.not_mem_nil, or_false] at hr
    rcases hr with rfl | rfl | rfl
    · refine ⟨?_, le_trans hs.1.1 hs.1.2, le_trans hs.1.1 (by exact_mod_cast hCle)⟩
      show 0 ≤ max (A.mines_min - ((A.fields \ B.fields).card : Int))
        (max (B.mines_min - ((B.fields \ A.fields).card : Int)) 0)
      exact le_trans (le_max_right _ 0) (le_max_right _ _)
    · refine ⟨?_, le_trans hs.2.1.1 hs.2.1.2, le_trans hs.2.1.1 (by exact_mod_cast hDle)⟩
      exact le_max_right _ 0
    · refine ⟨?_, le_trans hs.2.2.1 hs.2.2.2, le_trans hs.2.2.1 (by exact_mod_cast hEle)⟩
      exact le_max_right _ 0

/-- Witness for the amended C1: a consistent 2×1 board with a `Revealed(1)`
cell and the real mine next to it, and a concrete satisfiable pair A, B. -/
theorem claim1_bound_invariant_witness :
    (∃ out, find_regions ⟨2, 1, fun x _ => if x = 1 then none else some 1⟩
        ⟨[[1], [10]], 1⟩ = some out ∧
      ∀ r ∈ out.2.2, 0 ≤ r.mines_min ∧ r.mines_min ≤ r.mines_max ∧
        r.mines_max ≤ (r.fields.card : Int)) ∧
    (∀ r ∈ [(split_pair ⟨1, 1, {(0, 0), (1, 0)}⟩ ⟨1, 1, {(1, 0), (2, 0)}⟩).1,
        (split_pair ⟨1, 1, {(0, 0), (1, 0)}⟩ ⟨1, 1, {(1, 0), (2, 0)}⟩).2.1,
        (split_pair ⟨1, 1, {(0, 0), (1, 0)}⟩ ⟨1, 1, {(1, 0), (2, 0)}⟩).2.2],
      0 ≤ r.mines_min ∧ r.mines_min ≤ r.mines_max ∧
        r.mines_min ≤ (r.fields.card : Int)) := by
  constructor
  · exact claim1_bound_invariant.1 ⟨2, 1, fun x _ => if x = 1 then none else some 1⟩
      (fun p => decide (p = (1, 0))) ⟨[[1], [10]], 1⟩ (by decide) (by decide)
  · exact claim1_bound_invariant.2 ⟨1, 1, {(0, 0), (1, 0)}⟩ ⟨1, 1, {(1, 0), (2, 0)}⟩
      (fun p => decide (p = (1, 0))) (by decide) (by decide) (by decide) (by decide)

/-- Counterexample to claim C1 as stated: A and B both satisfy the full
invariant `0 ≤ mines_min ≤ mines_max ≤ |fields|`, are jointly satisfied by
a real mine configuration, are exactly of the collapsed shape `find_regions`
produces and are non-actionable for `check_region` — yet the derived region
C = A∩B computed by `split_regions` has `mines_max = 2 > 1 = |fields|`,
violating the invariant. -/
theorem claim1_counterexample :
    (0 ≤ (⟨2, 2, {(0, 0), (1, 0), (2, 0)}⟩ : Region).mines_min ∧
      (⟨2, 2, {(0, 0), (1, 0), (2, 0)}⟩ : Region).mines_min
        ≤ (⟨2, 2, {(0, 0), (1, 0), (2, 0)}⟩ : Region).mines_max ∧
      (⟨2, 2, {(0, 0), (1, 0), (2, 0)}⟩ : Region).mines_max
        ≤ (((⟨2, 2, {(0, 0), (1, 0), (2, 0)}⟩ : Region).fields.card : Int))) ∧
    (0 ≤ (⟨2, 2, {(2, 0), (3, 0), (4, 0)}⟩ : Region).mines_min ∧
      (⟨2, 2, {(2, 0), (3, 0), (4, 0)}⟩ : Region).mines_min
        ≤ (⟨2, 2, {(2, 0), (3, 0), (4, 0)}⟩ : Region).mines_max ∧
      (⟨2, 2, {(2, 0), (3, 0), (4, 0)}⟩ : Region).mines_max
        ≤ (((⟨2, 2, {(2, 0), (3, 0), (4, 0)}⟩ : Region).fields.card : Int))) ∧
    ((⟨2, 2, {(0, 0), (1, 0), (2, 0)}⟩ : Region).mines_min
      ≤ (countMines (fun p => decide (p = (0, 0) ∨ p = (1, 0) ∨ p = (3, 0) ∨ p = (4, 0)))
          {(0, 0), (1, 0), (2, 0)} : Int) ∧
      (countMines (fun p => decide (p = (0, 0) ∨ p = (1, 0) ∨ p = (3, 0) ∨ p = (4, 0)))
          {(0, 0), (1, 0), (2, 0)} : Int)
        ≤ (⟨2, 2, {(0, 0), (1, 0), (2, 0)}⟩ : Region).mines_max) ∧
    ((⟨2, 2, {(2, 0), (3, 0), (4, 0)}⟩ : Region).mines_min
      ≤ (countMines (fun p => decide (p = (0, 0) ∨ p = (1, 0) ∨ p = (3, 0) ∨ p = (4, 0)))
          {(2, 0), (3, 0), (4, 0)} : Int) ∧
      (countMines (fun p => decide (p = (0, 0) ∨ p = (1, 0) ∨ p = (3, 0) ∨ p = (4, 0)))
          {(2, 0), (3, 0), (4, 0)} : Int)
        ≤ (⟨2, 2, {(2, 0), (3, 0), (4, 0)}⟩ : Region).mines_max) ∧
    (check_region ⟨5, 1, fun _ _ => some 0⟩ ⟨[[10], [10], [10], [10], [10]], 4⟩
      ⟨2, 2, {(0, 0), (1, 0), (2, 0)}⟩
        = some (⟨[[10], [10], [10], [10], [10]], 4⟩, false)) ∧
    ¬((split_pair ⟨2, 2, {(0, 0), (1, 0), (2, 0)}⟩
        ⟨2, 2, {(2, 0), (3, 0), (4, 0)}⟩).1.mines_max
      ≤ (((split_pair ⟨2, 2, {(0, 0), (1, 0), (2, 0)}⟩
          ⟨2, 2, {(2, 0), (3, 0), (4, 0)}⟩).1.fields.card : Int))) := by
  decide
